import Mathlib

/-!
Verification of the tic-tac-toe engine (`src/lib.rs`).

The Rust library is shallowly embedded below:

* `Player` mirrors `enum Player { X, O, Empty }`.
* `Grid` mirrors `struct Grid { matrix, number_of_turns, player_turn }`;
  the 3×3 array `[[Player; 3]; 3]` is embedded as the function type
  `Fin 3 → Fin 3 → Player`, applied as `matrix y x` exactly like the
  Rust indexing `matrix[y][x]`; the `i32` counter is embedded as `Int`.
* Fallible `Grid::set(&mut self, x, y) -> Result<(), Player>` becomes a
  pure function returning the `Result` together with the post-state.
* The recursive search `minimax` terminates because every recursive call
  fills a cell; it is embedded with an explicit fuel parameter
  (`minimaxF`), and `minimax` runs it with fuel `10`, which is proved
  (`minimax_eq_minimaxF`, `measureG_le_ten`) to exceed the recursion
  depth of every grid, so the fuel never runs out and the embedding
  agrees with the Rust recursion on every input.
-/

namespace TicTacToe

/-- `enum Player { X, O, Empty }` from `lib.rs`. -/
inductive Player where
  | X
  | O
  | Empty
deriving DecidableEq, Repr, Fintype

/-- The Rust array `[[Player; 3]; 3]`, indexed as `m y x` for `m[y][x]`. -/
def Matrix3 : Type := Fin 3 → Fin 3 → Player

instance : DecidableEq Matrix3 := by unfold Matrix3; infer_instance

instance : Fintype Matrix3 := by unfold Matrix3; infer_instance

/-- `struct Grid` from `lib.rs`. -/
structure Grid where
  matrix : Matrix3
  number_of_turns : Int
  player_turn : Player

/-- `Grid::count_number_of_turns`: iterate over the rows (`y`) and the
squares of each row (`x`), adding 1 for every `O` or `X` square. -/
def count_number_of_turns (matrix : Matrix3) : Int :=
  ([0, 1, 2] : List (Fin 3)).foldl (fun number_of_turn y =>
    ([0, 1, 2] : List (Fin 3)).foldl (fun number_of_turn x =>
      match matrix y x with
      | Player.Empty => number_of_turn
      | Player.O => number_of_turn + 1
      | Player.X => number_of_turn + 1) number_of_turn) 0

/-- `Grid::from`: rebuild the derived fields from the matrix.  The Rust
parity test `number_of_turn & 1 == 0` is embedded as `% 2 = 0`, which
agrees with the bit test on every `i32`. -/
def Grid.fromMatrix (matrix : Matrix3) : Grid :=
  let number_of_turn := count_number_of_turns matrix
  let player_turn := if number_of_turn % 2 = 0 then Player.X else Player.O
  { matrix := matrix, number_of_turns := number_of_turn, player_turn := player_turn }

/-- `Grid::new`: the all-`Empty` grid. -/
def Grid.new : Grid :=
  Grid.fromMatrix (fun _ _ => Player.Empty)

/-- Writing one entry of the matrix: `self.matrix[y][x] = p`. -/
def Matrix3.setCell (m : Matrix3) (y x : Fin 3) (p : Player) : Matrix3 :=
  fun y' x' => if y' = y ∧ x' = x then p else m y' x'

/-- `Grid::set(x, y)`: the returned `Result<(), Player>` paired with the
post-state of the grid (`&mut self` made explicit). -/
def Grid.set (g : Grid) (x y : Fin 3) : Except Player Unit × Grid :=
  if g.matrix y x ≠ Player.Empty then
    (Except.error (g.matrix y x), g)
  else
    (Except.ok (),
      { matrix := g.matrix.setCell y x g.player_turn,
        number_of_turns := g.number_of_turns + 1,
        player_turn := if g.player_turn = Player.X then Player.O else Player.X })

/-- `Grid::is_full`: `number_of_turns == 9`. -/
def Grid.is_full (g : Grid) : Bool :=
  g.number_of_turns = 9

/-- `Grid::check_col`. -/
def Grid.check_col (g : Grid) (col : Fin 3) : Bool :=
  if g.matrix 0 col = Player.Empty then false
  else g.matrix 0 col = g.matrix 1 col ∧ g.matrix 1 col = g.matrix 2 col

/-- `Grid::check_row`. -/
def Grid.check_row (g : Grid) (row : Fin 3) : Bool :=
  if g.matrix row 0 = Player.Empty then false
  else g.matrix row 0 = g.matrix row 1 ∧ g.matrix row 1 = g.matrix row 2

/-- `Grid::check_diag`. -/
def Grid.check_diag (g : Grid) : Bool :=
  if g.matrix 0 0 = g.matrix 1 1 ∧ g.matrix 1 1 = g.matrix 2 2
      ∧ g.matrix 0 0 ≠ Player.Empty then
    true
  else if g.matrix 2 0 = g.matrix 1 1 ∧ g.matrix 1 1 = g.matrix 0 2
      ∧ g.matrix 0 2 ≠ Player.Empty then
    true
  else false

/-- `Grid::has_winner`: the diagonals, then columns and rows `0..3`. -/
def Grid.has_winner (g : Grid) : Bool :=
  if g.check_diag then true
  else ([0, 1, 2] : List (Fin 3)).any fun i => g.check_col i || g.check_row i

/-- The row-major enumeration order of the nested loops
`for (y, row) in matrix.iter().enumerate() { for (x, _) in row.iter().enumerate() }`,
as `(x, y)` pairs. -/
def coords : List (Fin 3 × Fin 3) :=
  [(0, 0), (1, 0), (2, 0), (0, 1), (1, 1), (2, 1), (0, 2), (1, 2), (2, 2)]

/-- The closure `update_score` of `minimax`: fold one child score `v2`
into the running `score` accumulator.  Both `if`s of the Rust closure
read the value `v` held before the closure ran, which is what the
sequential `let` below expresses. -/
def update_score (player_turn : Player) (score : Option Int) (v2 : Int) : Option Int :=
  match score with
  | some v =>
    let score := if player_turn = Player.X ∧ v > v2 then some v2 else some v
    if player_turn = Player.O ∧ v < v2 then some v2 else score
  | none => some v2

/-- `minimax` with explicit fuel.  Fuel only guards the recursive case;
the terminal branches (`has_winner`, `is_full`) are fuel-independent as
in the source.  `minimaxF_fuel_eq` shows the result does not depend on
the fuel once the fuel covers the recursion depth. -/
def minimaxF (fuel : Nat) (g : Grid) : Int :=
  if g.has_winner then
    if g.player_turn = Player.X then 10 - g.number_of_turns
    else g.number_of_turns - 10
  else if g.is_full then 0
  else
    match fuel with
    | 0 => 0
    | fuel + 1 =>
      (coords.foldl
        (fun score c =>
          if g.matrix c.2 c.1 = Player.Empty then
            update_score g.player_turn score (minimaxF fuel (g.set c.1 c.2).2)
          else score)
        none).getD 0

/-- `pub fn minimax(grid: Grid) -> i32`.  Fuel `10` strictly dominates
the recursion depth of every grid (`measureG_le_ten`), so this equals
the Rust recursion everywhere. -/
def minimax (g : Grid) : Int := minimaxF 10 g

/-- Combined state of the closure `update_best_score` of `best_play`:
the three `Option`s `best_play`, `best_x`, `best_y` of the source are
set together and read together, hence one `Option` of a triple
`(best_score, best_x, best_y)`. -/
def update_best (st : Option (Int × Fin 3 × Fin 3)) (score : Int) (x y : Fin 3) :
    Option (Int × Fin 3 × Fin 3) :=
  match st with
  | some (best_score, _, _) =>
    if best_score < score then some (score, x, y) else st
  | none => some (score, x, y)

/-- `Grid::best_play`: try all 9 coordinates in row-major order; on each
legal move clone, `set`, score by `minimax`, and keep the strictly best
score; return the kept `(x, y)`. -/
def Grid.best_play (g : Grid) : Option (Fin 3 × Fin 3) :=
  let r := coords.foldl
    (fun st c =>
      match g.set c.1 c.2 with
      | (Except.ok _, ng) => update_best st (minimax ng) c.1 c.2
      | (Except.error _, _) => st)
    none
  r.map fun t => (t.2.1, t.2.2)

/-- Certificate move order (centre, corners, edges) used only by the
bound checkers below; soundness never depends on this order. -/
def orderedCoords : List (Fin 3 × Fin 3) :=
  [(1, 1), (0, 0), (2, 0), (0, 2), (2, 2), (1, 0), (0, 1), (2, 1), (1, 2)]

/-- Checker certifying `minimaxF fuel g ≤ b`: at an `X` node one good
child suffices (X minimises), at an `O` node all children must comply. -/
def le_chk (b : Int) : Nat → Grid → Bool
  | 0, _ => false
  | fuel + 1, g =>
    if g.has_winner then
      decide ((if g.player_turn = Player.X then 10 - g.number_of_turns
               else g.number_of_turns - 10) ≤ b)
    else if g.is_full then decide ((0 : Int) ≤ b)
    else
      match orderedCoords.filter fun c => decide (g.matrix c.2 c.1 = Player.Empty) with
      | [] => decide ((0 : Int) ≤ b)
      | e :: es =>
        if g.player_turn = Player.X then
          (e :: es).any fun c => le_chk b fuel (g.set c.1 c.2).2
        else if g.player_turn = Player.O then
          (e :: es).all fun c => le_chk b fuel (g.set c.1 c.2).2
        else false

/-- Checker certifying `b ≤ minimaxF fuel g`: dual of `le_chk`. -/
def ge_chk (b : Int) : Nat → Grid → Bool
  | 0, _ => false
  | fuel + 1, g =>
    if g.has_winner then
      decide (b ≤ (if g.player_turn = Player.X then 10 - g.number_of_turns
                   else g.number_of_turns - 10))
    else if g.is_full then decide (b ≤ (0 : Int))
    else
      match orderedCoords.filter fun c => decide (g.matrix c.2 c.1 = Player.Empty) with
      | [] => decide (b ≤ (0 : Int))
      | e :: es =>
        if g.player_turn = Player.X then
          (e :: es).all fun c => ge_chk b fuel (g.set c.1 c.2).2
        else if g.player_turn = Player.O then
          (e :: es).any fun c => ge_chk b fuel (g.set c.1 c.2).2
        else false

/-! ## Specification-side definitions -/

/-- The number of non-`Empty` cells of a matrix (the spec's
"count of non-Empty cells"). -/
def specCount (m : Matrix3) : Nat :=
  (Finset.univ.filter fun c : Fin 3 × Fin 3 => m c.1 c.2 ≠ Player.Empty).card

/-- The number of `Empty` cells of a matrix. -/
def cntE (m : Matrix3) : Nat :=
  (Finset.univ.filter fun c : Fin 3 × Fin 3 => m c.1 c.2 = Player.Empty).card

/-- Termination measure of the `minimax` recursion: every recursive call
either fills an `Empty` cell, or (when `player_turn` is `Empty`) rewrites
an `Empty` cell with `Empty` while flipping the player to `X`. -/
def measureG (g : Grid) : Nat :=
  cntE g.matrix + (if g.player_turn = Player.Empty then 1 else 0)

/-- The legal moves of a grid, in the row-major enumeration order of the
source loops. -/
def legalMoves (g : Grid) : List (Fin 3 × Fin 3) :=
  coords.filter fun c => decide (g.matrix c.2 c.1 = Player.Empty)

/-- The `minimax` scores of all child positions, one per `Empty` cell in
row-major order, each obtained by applying the move to (a clone of) the
grid. -/
def childScores (g : Grid) : List Int :=
  (legalMoves g).map fun c => minimax (g.set c.1 c.2).2

/-- The candidate moves of `best_play` with their scores, in enumeration
order: `(score, x, y)` per `Empty` cell. -/
def scoredMoves (g : Grid) : List (Int × Fin 3 × Fin 3) :=
  (legalMoves g).map fun c => (minimax (g.set c.1 c.2).2, c.1, c.2)

/-- The spec's winning condition: some row, column or diagonal is
uniformly `X` or uniformly `O`. -/
def winnerLines (m : Matrix3) : Prop :=
  ∃ p : Player, (p = Player.X ∨ p = Player.O) ∧
    ((∃ y : Fin 3, m y 0 = p ∧ m y 1 = p ∧ m y 2 = p) ∨
     (∃ x : Fin 3, m 0 x = p ∧ m 1 x = p ∧ m 2 x = p) ∨
     (m 0 0 = p ∧ m 1 1 = p ∧ m 2 2 = p) ∨
     (m 0 2 = p ∧ m 1 1 = p ∧ m 2 0 = p))

instance (m : Matrix3) : Decidable (winnerLines m) := by
  unfold winnerLines; infer_instance

/-- The grids produced by the library's constructors and by `set`:
`Grid::new` is `Grid::from` of the all-`Empty` matrix, and `set` is the
only mutation. -/
inductive Reachable : Grid → Prop where
  | fromMatrix (m : Matrix3) : Reachable (Grid.fromMatrix m)
  | step (g : Grid) (x y : Fin 3) : Reachable g → Reachable (g.set x y).2

/-! ## Toolkit lemmas -/

theorem mem_coords (c : Fin 3 × Fin 3) : c ∈ coords := by
  rcases c with ⟨x, y⟩
  fin_cases x <;> fin_cases y <;> decide

theorem mem_orderedCoords (c : Fin 3 × Fin 3) : c ∈ orderedCoords := by
  rcases c with ⟨x, y⟩
  fin_cases x <;> fin_cases y <;> decide

theorem update_score_X (v v2 : Int) :
    update_score Player.X (some v) v2 = some (min v v2) := by
  simp only [update_score]
  by_cases h : v2 < v
  · simp [h, min_eq_right h.le]
  · simp [h, min_eq_left (not_lt.mp h)]

theorem update_score_O (v v2 : Int) :
    update_score Player.O (some v) v2 = some (max v v2) := by
  simp only [update_score]
  by_cases h : v < v2
  · simp [h, max_eq_right h.le]
  · simp [h, max_eq_left (not_lt.mp h)]

theorem update_score_none (p : Player) (v2 : Int) :
    update_score p none v2 = some v2 := rfl

theorem foldl_update_score_X (vs : List Int) :
    ∀ v : Int, vs.foldl (update_score Player.X) (some v)
      = some (vs.foldl min v) := by
  induction vs with
  | nil => intro v; rfl
  | cons c t ih =>
    intro v
    simp only [List.foldl_cons, update_score_X]
    exact ih (min v c)

theorem foldl_update_score_O (vs : List Int) :
    ∀ v : Int, vs.foldl (update_score Player.O) (some v)
      = some (vs.foldl max v) := by
  induction vs with
  | nil => intro v; rfl
  | cons c t ih =>
    intro v
    simp only [List.foldl_cons, update_score_O]
    exact ih (max v c)

theorem foldl_min_mem (vs : List Int) :
    ∀ v : Int, vs.foldl min v ∈ v :: vs := by
  induction vs with
  | nil => intro v; simp
  | cons c t ih =>
    intro v
    simp only [List.foldl_cons]
    rcases List.mem_cons.mp (ih (min v c)) with h | h
    · rw [h]
      rcases min_choice v c with h' | h' <;> rw [h'] <;> simp
    · simp [List.mem_cons_of_mem, h]

theorem foldl_max_mem (vs : List Int) :
    ∀ v : Int, vs.foldl max v ∈ v :: vs := by
  induction vs with
  | nil => intro v; simp
  | cons c t ih =>
    intro v
    simp only [List.foldl_cons]
    rcases List.mem_cons.mp (ih (max v c)) with h | h
    · rw [h]
      rcases max_choice v c with h' | h' <;> rw [h'] <;> simp
    · simp [List.mem_cons_of_mem, h]

theorem foldl_min_le_init (vs : List Int) : ∀ v : Int, vs.foldl min v ≤ v := by
  induction vs with
  | nil => intro v; simp
  | cons c t ih =>
    intro v
    simp only [List.foldl_cons]
    exact le_trans (ih (min v c)) (min_le_left _ _)

theorem foldl_max_ge_init (vs : List Int) : ∀ v : Int, v ≤ vs.foldl max v := by
  induction vs with
  | nil => intro v; simp
  | cons c t ih =>
    intro v
    simp only [List.foldl_cons]
    exact le_trans (le_max_left _ _) (ih (max v c))

theorem foldl_min_le (vs : List Int) :
    ∀ v w : Int, w ∈ v :: vs → vs.foldl min v ≤ w := by
  induction vs with
  | nil =>
    intro v w hw
    rcases List.mem_cons.mp hw with h | h
    · rw [h]; simp
    · simp at h
  | cons c t ih =>
    intro v w hw
    simp only [List.foldl_cons]
    rcases List.mem_cons.mp hw with h | h
    · rw [h]
      exact le_trans (foldl_min_le_init t (min v c)) (min_le_left _ _)
    · rcases List.mem_cons.mp h with h' | h'
      · rw [h']
        exact le_trans (foldl_min_le_init t (min v c)) (min_le_right _ _)
      · exact ih (min v c) w (List.mem_cons_of_mem _ h')

theorem foldl_max_ge (vs : List Int) :
    ∀ v w : Int, w ∈ v :: vs → w ≤ vs.foldl max v := by
  induction vs with
  | nil =>
    intro v w hw
    rcases List.mem_cons.mp hw with h | h
    · rw [h]; simp
    · simp at h
  | cons c t ih =>
    intro v w hw
    simp only [List.foldl_cons]
    rcases List.mem_cons.mp hw with h | h
    · rw [h]
      exact le_trans (le_max_left v c) (foldl_max_ge_init t (max v c))
    · rcases List.mem_cons.mp h with h' | h'
      · rw [h']
        exact le_trans (le_max_right v c) (foldl_max_ge_init t (max v c))
      · exact ih (max v c) w (List.mem_cons_of_mem _ h')

/-! ## Counting lemmas -/

theorem count_closed (m : Matrix3) :
    count_number_of_turns m =
      (if m 0 0 ≠ Player.Empty then 1 else 0) + (if m 0 1 ≠ Player.Empty then 1 else 0)
        + (if m 0 2 ≠ Player.Empty then 1 else 0) + (if m 1 0 ≠ Player.Empty then 1 else 0)
        + (if m 1 1 ≠ Player.Empty then 1 else 0) + (if m 1 2 ≠ Player.Empty then 1 else 0)
        + (if m 2 0 ≠ Player.Empty then 1 else 0) + (if m 2 1 ≠ Player.Empty then 1 else 0)
        + (if m 2 2 ≠ Player.Empty then 1 else 0) := by
  have hstep : ∀ (n : Int) (p : Player),
      (match p with
       | Player.Empty => n
       | Player.O => n + 1
       | Player.X => n + 1) = n + (if p ≠ Player.Empty then 1 else 0) := by
    intro n p; cases p <;> simp
  simp only [count_number_of_turns, List.foldl_cons, List.foldl_nil, hstep]
  ring

theorem specCount_closed (m : Matrix3) :
    (specCount m : Int) =
      (if m 0 0 ≠ Player.Empty then 1 else 0) + (if m 0 1 ≠ Player.Empty then 1 else 0)
        + (if m 0 2 ≠ Player.Empty then 1 else 0) + (if m 1 0 ≠ Player.Empty then 1 else 0)
        + (if m 1 1 ≠ Player.Empty then 1 else 0) + (if m 1 2 ≠ Player.Empty then 1 else 0)
        + (if m 2 0 ≠ Player.Empty then 1 else 0) + (if m 2 1 ≠ Player.Empty then 1 else 0)
        + (if m 2 2 ≠ Player.Empty then 1 else 0) := by
  rw [specCount, Finset.card_filter]
  rw [Fintype.sum_prod_type]
  simp only [Fin.sum_univ_three]
  push_cast
  ring

theorem count_eq_specCount (m : Matrix3) :
    count_number_of_turns m = (specCount m : Int) := by
  rw [count_closed, specCount_closed]

theorem specCount_le_eight (m : Matrix3) (y x : Fin 3) (h : m y x = Player.Empty) :
    specCount m ≤ 8 := by
  have hsub : (Finset.univ.filter fun c : Fin 3 × Fin 3 => m c.1 c.2 ≠ Player.Empty)
      ⊆ Finset.univ.erase (y, x) := by
    intro c hc
    rw [Finset.mem_filter] at hc
    rw [Finset.mem_erase]
    refine ⟨?_, Finset.mem_univ c⟩
    intro hcyx
    subst hcyx
    exact hc.2 h
  have := Finset.card_le_card hsub
  rw [Finset.card_erase_of_mem (Finset.mem_univ _)] at this
  simpa [specCount] using this

theorem cntE_le_nine (m : Matrix3) : cntE m ≤ 9 := by
  have := Finset.card_filter_le (Finset.univ : Finset (Fin 3 × Fin 3))
    (fun c => m c.1 c.2 = Player.Empty)
  simpa [cntE] using this

theorem cntE_setCell (m : Matrix3) (y x : Fin 3) (p : Player)
    (hE : m y x = Player.Empty) (hp : p ≠ Player.Empty) :
    cntE (m.setCell y x p) + 1 = cntE m := by
  have hset : (Finset.univ.filter fun c : Fin 3 × Fin 3 => m.setCell y x p c.1 c.2 = Player.Empty)
      = (Finset.univ.filter fun c : Fin 3 × Fin 3 => m c.1 c.2 = Player.Empty).erase (y, x) := by
    ext c
    rw [Finset.mem_erase, Finset.mem_filter, Finset.mem_filter]
    constructor
    · intro ⟨_, hc⟩
      by_cases hceq : c.1 = y ∧ c.2 = x
      · rw [Matrix3.setCell, if_pos hceq] at hc
        exact absurd hc hp
      · rw [Matrix3.setCell, if_neg hceq] at hc
        refine ⟨?_, Finset.mem_univ c, hc⟩
        intro hcyx
        exact hceq ⟨by rw [hcyx], by rw [hcyx]⟩
    · intro ⟨hne, _, hc⟩
      refine ⟨Finset.mem_univ c, ?_⟩
      have hceq : ¬(c.1 = y ∧ c.2 = x) := by
        intro ⟨h1, h2⟩
        exact hne (Prod.ext h1 h2)
      rw [Matrix3.setCell, if_neg hceq]
      exact hc
  have hmem : ((y, x) : Fin 3 × Fin 3)
      ∈ Finset.univ.filter fun c : Fin 3 × Fin 3 => m c.1 c.2 = Player.Empty := by
    rw [Finset.mem_filter]
    exact ⟨Finset.mem_univ _, hE⟩
  rw [cntE, cntE, hset]
  exact Finset.card_erase_add_one hmem

theorem specCount_setCell (m : Matrix3) (y x : Fin 3) (p : Player)
    (hE : m y x = Player.Empty) (hp : p ≠ Player.Empty) :
    specCount (m.setCell y x p) = specCount m + 1 := by
  have hset : (Finset.univ.filter fun c : Fin 3 × Fin 3 => m.setCell y x p c.1 c.2 ≠ Player.Empty)
      = insert ((y, x) : Fin 3 × Fin 3)
          (Finset.univ.filter fun c : Fin 3 × Fin 3 => m c.1 c.2 ≠ Player.Empty) := by
    ext c
    rw [Finset.mem_insert, Finset.mem_filter, Finset.mem_filter]
    constructor
    · intro ⟨_, hc⟩
      by_cases hceq : c.1 = y ∧ c.2 = x
      · exact Or.inl (Prod.ext hceq.1 hceq.2)
      · rw [Matrix3.setCell, if_neg hceq] at hc
        exact Or.inr ⟨Finset.mem_univ c, hc⟩
    · intro hc
      refine ⟨Finset.mem_univ c, ?_⟩
      rcases hc with hc | ⟨_, hc⟩
      · subst hc
        rw [Matrix3.setCell, if_pos ⟨rfl, rfl⟩]
        exact hp
      · by_cases hceq : c.1 = y ∧ c.2 = x
        · rw [← Prod.mk.eta (p := c), hceq.1, hceq.2, hE] at hc
          exact absurd rfl hc
        · rw [Matrix3.setCell, if_neg hceq]
          exact hc
  have hnotmem : ((y, x) : Fin 3 × Fin 3)
      ∉ Finset.univ.filter fun c : Fin 3 × Fin 3 => m c.1 c.2 ≠ Player.Empty := by
    rw [Finset.mem_filter]
    intro ⟨_, hc⟩
    exact hc hE
  rw [specCount, specCount, hset, Finset.card_insert_of_not_mem hnotmem]

theorem setCell_empty_self (m : Matrix3) (y x : Fin 3) (hE : m y x = Player.Empty) :
    m.setCell y x Player.Empty = m := by
  funext y' x'
  rw [Matrix3.setCell]
  by_cases h : y' = y ∧ x' = x
  · rw [if_pos h, h.1, h.2, hE]
  · rw [if_neg h]

theorem measureG_le_ten (g : Grid) : measureG g ≤ 10 := by
  have h1 := cntE_le_nine g.matrix
  rw [measureG]
  by_cases h : g.player_turn = Player.Empty <;> simp [h] <;> omega

theorem measureG_set_child (g : Grid) (x y : Fin 3) (hE : g.matrix y x = Player.Empty) :
    measureG (g.set x y).2 + 1 = measureG g := by
  rw [Grid.set, if_neg (by simp [hE])]
  rcases hp : g.player_turn with _ | _ | _
  · -- player X: the written mark is X, the new player is O
    have hc := cntE_setCell g.matrix y x Player.X hE (by simp)
    simp [measureG, hp, hc]
  · -- player O: the written mark is O, the new player is X
    have hc := cntE_setCell g.matrix y x Player.O hE (by simp)
    simp [measureG, hp, hc]
  · -- degenerate player Empty: the matrix is unchanged, the player becomes X
    simp [measureG, hp, setCell_empty_self g.matrix y x hE]

/-! ## Fold and fuel machinery for `minimax` -/

theorem foldl_body_eq {α β σ : Type} (P : α → Prop) [DecidablePred P] (f : α → β)
    (comb : σ → β → σ) (body : σ → α → σ)
    (hbody : ∀ s a, body s a = if P a then comb s (f a) else s) :
    ∀ (l : List α) (acc : σ),
      l.foldl body acc = ((l.filter fun a => decide (P a)).map f).foldl comb acc := by
  intro l
  induction l with
  | nil => intro acc; simp
  | cons a t ih =>
    intro acc
    by_cases h : P a
    · rw [List.foldl_cons, hbody, if_pos h, List.filter_cons,
        if_pos (by simpa using h), List.map_cons, List.foldl_cons]
      exact ih _
    · rw [List.foldl_cons, hbody, if_neg h, List.filter_cons,
        if_neg (by simpa using h)]
      exact ih _

theorem minimaxF_winner (fuel : Nat) (g : Grid) (hw : g.has_winner = true) :
    minimaxF fuel g =
      if g.player_turn = Player.X then 10 - g.number_of_turns
      else g.number_of_turns - 10 := by
  rw [minimaxF.eq_def, if_pos hw]

theorem minimaxF_full (fuel : Nat) (g : Grid) (hw : g.has_winner = false)
    (hf : g.is_full = true) :
    minimaxF fuel g = 0 := by
  rw [minimaxF.eq_def, if_neg (by simp [hw]), if_pos hf]

theorem minimaxF_zero_open (g : Grid) (hw : g.has_winner = false)
    (hf : g.is_full = false) :
    minimaxF 0 g = 0 := by
  rw [minimaxF, if_neg (by simp [hw]), if_neg (by simp [hf])]

theorem minimaxF_succ_open (fuel : Nat) (g : Grid) (hw : g.has_winner = false)
    (hf : g.is_full = false) :
    minimaxF (fuel + 1) g =
      (((legalMoves g).map fun c => minimaxF fuel (g.set c.1 c.2).2).foldl
        (update_score g.player_turn) none).getD 0 := by
  rw [minimaxF, if_neg (by simp [hw]), if_neg (by simp [hf])]
  rw [foldl_body_eq (fun c : Fin 3 × Fin 3 => g.matrix c.2 c.1 = Player.Empty)
    (fun c => minimaxF fuel (g.set c.1 c.2).2) (update_score g.player_turn)
    _ (fun s a => rfl)]
  rfl

theorem legalMoves_eq_nil (g : Grid) (h : cntE g.matrix = 0) : legalMoves g = [] := by
  have hempty : ∀ c : Fin 3 × Fin 3, g.matrix c.1 c.2 ≠ Player.Empty := by
    intro c
    have hfe := Finset.card_eq_zero.mp h
    intro hc
    have : c ∈ (Finset.univ.filter
        fun c : Fin 3 × Fin 3 => g.matrix c.1 c.2 = Player.Empty) := by
      rw [Finset.mem_filter]
      exact ⟨Finset.mem_univ _, hc⟩
    rw [hfe] at this
    exact absurd this (Finset.not_mem_empty c)
  rw [legalMoves, List.filter_eq_nil_iff]
  intro c _
  simpa using hempty (c.2, c.1)

theorem mem_legalMoves (g : Grid) (x y : Fin 3) (hE : g.matrix y x = Player.Empty) :
    (x, y) ∈ legalMoves g := by
  rw [legalMoves, List.mem_filter]
  exact ⟨mem_coords _, by simpa using hE⟩

theorem legalMoves_empty_cell (g : Grid) (c : Fin 3 × Fin 3)
    (hc : c ∈ legalMoves g) : g.matrix c.2 c.1 = Player.Empty := by
  rw [legalMoves, List.mem_filter] at hc
  simpa using hc.2

theorem cntE_pos (g : Grid) (y x : Fin 3) (hE : g.matrix y x = Player.Empty) :
    1 ≤ cntE g.matrix := by
  rw [cntE]
  exact Finset.card_pos.mpr ⟨(y, x), by rw [Finset.mem_filter]; exact ⟨Finset.mem_univ _, hE⟩⟩

theorem minimaxF_fuel_eq : ∀ (n m : Nat) (g : Grid),
    measureG g ≤ n → measureG g ≤ m → minimaxF n g = minimaxF m g := by
  intro n
  induction n with
  | zero =>
    intro m g hn _
    have hc : cntE g.matrix = 0 := by
      rw [measureG] at hn; omega
    cases hw : g.has_winner with
    | true => rw [minimaxF_winner 0 g hw, minimaxF_winner m g hw]
    | false =>
      cases hf : g.is_full with
      | true => rw [minimaxF_full 0 g hw hf, minimaxF_full m g hw hf]
      | false =>
        rw [minimaxF_zero_open g hw hf]
        cases m with
        | zero => rw [minimaxF_zero_open g hw hf]
        | succ j =>
          rw [minimaxF_succ_open j g hw hf, legalMoves_eq_nil g hc]
          rfl
  | succ k ih =>
    intro m g hn hm
    cases hw : g.has_winner with
    | true => rw [minimaxF_winner _ g hw, minimaxF_winner m g hw]
    | false =>
      cases hf : g.is_full with
      | true => rw [minimaxF_full _ g hw hf, minimaxF_full m g hw hf]
      | false =>
        by_cases hc : cntE g.matrix = 0
        · rw [minimaxF_succ_open k g hw hf, legalMoves_eq_nil g hc]
          cases m with
          | zero => rw [minimaxF_zero_open g hw hf]; rfl
          | succ j =>
            rw [minimaxF_succ_open j g hw hf, legalMoves_eq_nil g hc]
            rfl
        · have hm1 : 1 ≤ measureG g := by
            rw [measureG]; omega
          cases m with
          | zero => omega
          | succ j =>
            rw [minimaxF_succ_open k g hw hf, minimaxF_succ_open j g hw hf]
            have hmap : ((legalMoves g).map fun c => minimaxF k (g.set c.1 c.2).2)
                = (legalMoves g).map fun c => minimaxF j (g.set c.1 c.2).2 := by
              apply List.map_congr_left
              intro c hcmem
              have hE := legalMoves_empty_cell g c hcmem
              have hmeas := measureG_set_child g c.1 c.2 hE
              exact ih j (g.set c.1 c.2).2 (by omega) (by omega)
            rw [hmap]

theorem minimax_eq_minimaxF (g : Grid) (fuel : Nat) (h : measureG g ≤ fuel) :
    minimax g = minimaxF fuel g :=
  minimaxF_fuel_eq 10 fuel g (measureG_le_ten g) h

/-! ## `best_play` machinery -/

/-- One step of the `best_play` fold, over a scored candidate
`(score, x, y)`. -/
def ubStep (st : Option (Int × Fin 3 × Fin 3)) (t : Int × Fin 3 × Fin 3) :
    Option (Int × Fin 3 × Fin 3) :=
  update_best st t.1 t.2.1 t.2.2

theorem ubStep_some (b c : Int × Fin 3 × Fin 3) :
    ubStep (some b) c = if b.1 < c.1 then some c else some b := by
  rcases b with ⟨s, x, y⟩
  rcases c with ⟨s', x', y'⟩
  simp [ubStep, update_best]

theorem best_play_eq_scored (g : Grid) :
    g.best_play = ((scoredMoves g).foldl ubStep none).map fun t => (t.2.1, t.2.2) := by
  have hbody : ∀ (s : Option (Int × Fin 3 × Fin 3)) (c : Fin 3 × Fin 3),
      (match g.set c.1 c.2 with
       | (Except.ok _, ng) => update_best s (minimax ng) c.1 c.2
       | (Except.error _, _) => s)
        = if g.matrix c.2 c.1 = Player.Empty then
            ubStep s (minimax (g.set c.1 c.2).2, c.1, c.2)
          else s := by
    intro s c
    by_cases h : g.matrix c.2 c.1 = Player.Empty
    · rw [if_pos h]
      rw [Grid.set, if_neg (by simp [h])]
      rfl
    · rw [if_neg h]
      rw [Grid.set, if_pos (by simp [h])]
  rw [Grid.best_play]
  rw [foldl_body_eq (fun c : Fin 3 × Fin 3 => g.matrix c.2 c.1 = Player.Empty)
    (fun c => (minimax (g.set c.1 c.2).2, c.1, c.2)) ubStep _ hbody]
  rfl

theorem foldSel : ∀ (t : List (Int × Fin 3 × Fin 3)) (b : Int × Fin 3 × Fin 3),
    ∃ r l₁ l₂, t.foldl ubStep (some b) = some r
      ∧ b :: t = l₁ ++ r :: l₂
      ∧ (∀ e ∈ l₁, e.1 < r.1)
      ∧ (∀ e ∈ b :: t, e.1 ≤ r.1) := by
  intro t
  induction t with
  | nil =>
    intro b
    exact ⟨b, [], [], rfl, rfl, by simp, by simp⟩
  | cons c t' ih =>
    intro b
    by_cases h : b.1 < c.1
    · obtain ⟨r, l₁, l₂, hfold, hdec, hstrict, hle⟩ := ih c
      refine ⟨r, b :: l₁, l₂, ?_, ?_, ?_, ?_⟩
      · rw [List.foldl_cons, ubStep_some, if_pos h]
        exact hfold
      · rw [List.cons_append, ← hdec]
      · intro e he
        rcases List.mem_cons.mp he with he' | he'
        · rw [he']
          exact lt_of_lt_of_le h (hle c (List.mem_cons_self _ _))
        · exact hstrict e he'
      · intro e he
        rcases List.mem_cons.mp he with he' | he'
        · rw [he']
          exact le_of_lt (lt_of_lt_of_le h (hle c (List.mem_cons_self _ _)))
        · exact hle e he'
    · obtain ⟨r, l₁, l₂, hfold, hdec, hstrict, hle⟩ := ih b
      cases l₁ with
      | nil =>
        rw [List.nil_append] at hdec
        injection hdec with hb ht
        refine ⟨r, [], c :: l₂, ?_, ?_, by simp, ?_⟩
        · rw [List.foldl_cons, ubStep_some, if_neg h]
          exact hfold
        · rw [List.nil_append, ← hb, ← ht]
        · intro e he
          rcases List.mem_cons.mp he with he' | he'
          · rw [he']
            exact hle b (List.mem_cons_self _ _)
          · rcases List.mem_cons.mp he' with he'' | he''
            · rw [he'']
              exact le_trans (not_lt.mp h) (hle b (List.mem_cons_self _ _))
            · exact hle e (List.mem_cons_of_mem _ he'')
      | cons hd l₁' =>
        rw [List.cons_append] at hdec
        injection hdec with hb ht
        refine ⟨r, b :: c :: l₁', l₂, ?_, ?_, ?_, ?_⟩
        · rw [List.foldl_cons, ubStep_some, if_neg h]
          exact hfold
        · rw [List.cons_append, List.cons_append, ← ht]
        · intro e he
          have hbr : b.1 < r.1 := by
            rw [hb]
            exact hstrict hd (List.mem_cons_self _ _)
          rcases List.mem_cons.mp he with he' | he'
          · rw [he']
            exact hbr
          · rcases List.mem_cons.mp he' with he'' | he''
            · rw [he'']
              exact lt_of_le_of_lt (not_lt.mp h) hbr
            · exact hstrict e (List.mem_cons_of_mem _ he'')
        · intro e he
          rcases List.mem_cons.mp he with he' | he'
          · rw [he']
            exact hle b (List.mem_cons_self _ _)
          · rcases List.mem_cons.mp he' with he'' | he''
            · rw [he'']
              exact le_trans (not_lt.mp h) (hle b (List.mem_cons_self _ _))
            · exact hle e (List.mem_cons_of_mem _ he'')

/-- Shared characterisation of `best_play` on a grid with at least one
legal move: it returns the earliest-enumerated candidate whose score is
maximal over all candidates. -/
theorem best_play_argmax (g : Grid) (hne : scoredMoves g ≠ []) :
    ∃ r l₁ l₂, g.best_play = some (r.2.1, r.2.2)
      ∧ scoredMoves g = l₁ ++ r :: l₂
      ∧ (∀ e ∈ l₁, e.1 < r.1)
      ∧ (∀ e ∈ scoredMoves g, e.1 ≤ r.1) := by
  rcases hsm : scoredMoves g with _ | ⟨b, t⟩
  · exact absurd hsm hne
  · obtain ⟨r, l₁, l₂, hfold, hdec, hstrict, hle⟩ := foldSel t b
    refine ⟨r, l₁, l₂, ?_, hdec, hstrict, hle⟩
    rw [best_play_eq_scored, hsm, List.foldl_cons]
    have : ubStep none b = some b := rfl
    rw [this, hfold]
    rfl

theorem scoredMoves_ne_nil (g : Grid) (y x : Fin 3)
    (hE : g.matrix y x = Player.Empty) : scoredMoves g ≠ [] := by
  intro hnil
  have := mem_legalMoves g x y hE
  rw [scoredMoves] at hnil
  rw [List.map_eq_nil_iff] at hnil
  rw [hnil] at this
  exact absurd this (List.not_mem_nil _)

/-! ## Soundness of the bound checkers -/

theorem mem_orderedFilter_iff (g : Grid) (c : Fin 3 × Fin 3) :
    c ∈ orderedCoords.filter (fun c => decide (g.matrix c.2 c.1 = Player.Empty))
      ↔ c ∈ legalMoves g := by
  rw [List.mem_filter, legalMoves, List.mem_filter]
  constructor
  · intro h
    exact ⟨mem_coords c, h.2⟩
  · intro h
    exact ⟨mem_orderedCoords c, h.2⟩

theorem orderedFilter_nil (g : Grid)
    (h : orderedCoords.filter (fun c => decide (g.matrix c.2 c.1 = Player.Empty)) = []) :
    legalMoves g = [] := by
  rcases hlm : legalMoves g with _ | ⟨c, cs⟩
  · rfl
  · have hc : c ∈ legalMoves g := by rw [hlm]; exact List.mem_cons_self _ _
    have := (mem_orderedFilter_iff g c).mpr hc
    rw [h] at this
    exact absurd this (List.not_mem_nil _)

theorem le_chk_sound : ∀ (fuel : Nat) (g : Grid) (b : Int),
    le_chk b fuel g = true → minimaxF fuel g ≤ b := by
  intro fuel
  induction fuel with
  | zero =>
    intro g b h
    exact absurd h (by rw [le_chk]; simp)
  | succ k ih =>
    intro g b h
    rw [le_chk] at h
    cases hw : g.has_winner with
    | true =>
      rw [hw, if_pos rfl] at h
      rw [minimaxF_winner _ _ hw]
      exact of_decide_eq_true h
    | false =>
      rw [hw] at h
      rw [if_neg (by simp)] at h
      cases hf : g.is_full with
      | true =>
        rw [hf, if_pos rfl] at h
        rw [minimaxF_full _ _ hw hf]
        exact of_decide_eq_true h
      | false =>
        rw [hf, if_neg (by simp)] at h
        rw [minimaxF_succ_open _ _ hw hf]
        rcases hoc : orderedCoords.filter
            (fun c => decide (g.matrix c.2 c.1 = Player.Empty)) with _ | ⟨e, es⟩
        · rw [hoc] at h
          rw [orderedFilter_nil g hoc]
          exact of_decide_eq_true h
        · rw [hoc] at h
          have he : e ∈ legalMoves g := by
            rw [← mem_orderedFilter_iff g e, hoc]
            exact List.mem_cons_self _ _
          have h2 : (if g.player_turn = Player.X then
                (e :: es).any (fun c => le_chk b k (g.set c.1 c.2).2)
              else if g.player_turn = Player.O then
                (e :: es).all (fun c => le_chk b k (g.set c.1 c.2).2)
              else false) = true := h
          rcases hlm : legalMoves g with _ | ⟨hd, tl⟩
          · rw [hlm] at he
            exact absurd he (List.not_mem_nil _)
          · rw [List.map_cons, List.foldl_cons, update_score_none]
            rcases hp : g.player_turn with _ | _ | _
            · -- X: some child is certified
              rw [hp] at h2
              rw [if_pos rfl] at h2
              rw [List.any_eq_true] at h2
              obtain ⟨c, hcmem, hcchk⟩ := h2
              have hclegal : c ∈ legalMoves g := by
                rw [← mem_orderedFilter_iff g c, hoc]
                exact hcmem
              have hcb := ih (g.set c.1 c.2).2 b hcchk
              rw [foldl_update_score_X, Option.getD_some]
              refine le_trans ?_ hcb
              have hmem : minimaxF k (g.set c.1 c.2).2
                  ∈ (hd :: tl).map fun c => minimaxF k (g.set c.1 c.2).2 := by
                rw [← hlm]
                exact List.mem_map_of_mem _ hclegal
              rw [List.map_cons] at hmem
              exact foldl_min_le _ _ _ hmem
            · -- O: all children certified, the max is one of them
              rw [hp] at h2
              rw [if_neg (by simp), if_pos rfl] at h2
              rw [List.all_eq_true] at h2
              rw [foldl_update_score_O, Option.getD_some]
              have hmem0 := foldl_max_mem
                (tl.map fun c => minimaxF k (g.set c.1 c.2).2)
                (minimaxF k (g.set hd.1 hd.2).2)
              have hmem : (tl.map fun c => minimaxF k (g.set c.1 c.2).2).foldl max
                    (minimaxF k (g.set hd.1 hd.2).2)
                  ∈ (hd :: tl).map fun c => minimaxF k (g.set c.1 c.2).2 := by
                rw [List.map_cons]
                exact hmem0
              rw [← hlm] at hmem
              obtain ⟨c, hcmem, hceq⟩ := List.mem_map.mp hmem
              have hcord : c ∈ orderedCoords.filter
                  (fun c => decide (g.matrix c.2 c.1 = Player.Empty)) :=
                (mem_orderedFilter_iff g c).mpr hcmem
              rw [hoc] at hcord
              have := ih (g.set c.1 c.2).2 b (h2 c hcord)
              simpa [hceq] using this
            · -- degenerate player: the checker rejects
              rw [hp] at h2
              rw [if_neg (by simp), if_neg (by simp)] at h2
              exact absurd h2 (by simp)

theorem ge_chk_sound : ∀ (fuel : Nat) (g : Grid) (b : Int),
    ge_chk b fuel g = true → b ≤ minimaxF fuel g := by
  intro fuel
  induction fuel with
  | zero =>
    intro g b h
    exact absurd h (by rw [ge_chk]; simp)
  | succ k ih =>
    intro g b h
    rw [ge_chk] at h
    cases hw : g.has_winner with
    | true =>
      rw [hw, if_pos rfl] at h
      rw [minimaxF_winner _ _ hw]
      exact of_decide_eq_true h
    | false =>
      rw [hw] at h
      rw [if_neg (by simp)] at h
      cases hf : g.is_full with
      | true =>
        rw [hf, if_pos rfl] at h
        rw [minimaxF_full _ _ hw hf]
        exact of_decide_eq_true h
      | false =>
        rw [hf, if_neg (by simp)] at h
        rw [minimaxF_succ_open _ _ hw hf]
        rcases hoc : orderedCoords.filter
            (fun c => decide (g.matrix c.2 c.1 = Player.Empty)) with _ | ⟨e, es⟩
        · rw [hoc] at h
          rw [orderedFilter_nil g hoc]
          exact of_decide_eq_true h
        · rw [hoc] at h
          have he : e ∈ legalMoves g := by
            rw [← mem_orderedFilter_iff g e, hoc]
            exact List.mem_cons_self _ _
          have h2 : (if g.player_turn = Player.X then
                (e :: es).all (fun c => ge_chk b k (g.set c.1 c.2).2)
              else if g.player_turn = Player.O then
                (e :: es).any (fun c => ge_chk b k (g.set c.1 c.2).2)
              else false) = true := h
          rcases hlm : legalMoves g with _ | ⟨hd, tl⟩
          · rw [hlm] at he
            exact absurd he (List.not_mem_nil _)
          · rw [List.map_cons, List.foldl_cons, update_score_none]
            rcases hp : g.player_turn with _ | _ | _
            · -- X: all children certified, the min is one of them
              rw [hp] at h2
              rw [if_pos rfl] at h2
              rw [List.all_eq_true] at h2
              rw [foldl_update_score_X, Option.getD_some]
              have hmem0 := foldl_min_mem
                (tl.map fun c => minimaxF k (g.set c.1 c.2).2)
                (minimaxF k (g.set hd.1 hd.2).2)
              have hmem : (tl.map fun c => minimaxF k (g.set c.1 c.2).2).foldl min
                    (minimaxF k (g.set hd.1 hd.2).2)
                  ∈ (hd :: tl).map fun c => minimaxF k (g.set c.1 c.2).2 := by
                rw [List.map_cons]
                exact hmem0
              rw [← hlm] at hmem
              obtain ⟨c, hcmem, hceq⟩ := List.mem_map.mp hmem
              have hcord : c ∈ orderedCoords.filter
                  (fun c => decide (g.matrix c.2 c.1 = Player.Empty)) :=
                (mem_orderedFilter_iff g c).mpr hcmem
              rw [hoc] at hcord
              have := ih (g.set c.1 c.2).2 b (h2 c hcord)
              simpa [hceq] using this
            · -- O: some child is certified
              rw [hp] at h2
              rw [if_neg (by simp), if_pos rfl] at h2
              rw [List.any_eq_true] at h2
              obtain ⟨c, hcmem, hcchk⟩ := h2
              have hclegal : c ∈ legalMoves g := by
                rw [← mem_orderedFilter_iff g c, hoc]
                exact hcmem
              have hcb := ih (g.set c.1 c.2).2 b hcchk
              rw [foldl_update_score_O, Option.getD_some]
              refine le_trans hcb ?_
              have hmem : minimaxF k (g.set c.1 c.2).2
                  ∈ (hd :: tl).map fun c => minimaxF k (g.set c.1 c.2).2 := by
                rw [← hlm]
                exact List.mem_map_of_mem _ hclegal
              rw [List.map_cons] at hmem
              exact foldl_max_ge _ _ _ hmem
            · -- degenerate player: the checker rejects
              rw [hp] at h2
              rw [if_neg (by simp), if_neg (by simp)] at h2
              exact absurd h2 (by simp)

/-- Build a matrix from its nine entries, row by row (row `y = 0` first,
each row left to right). -/
def mkMatrix (p00 p01 p02 p10 p11 p12 p20 p21 p22 : Player) : Matrix3 :=
  fun y x =>
    match y.val, x.val with
    | 0, 0 => p00
    | 0, 1 => p01
    | 0, 2 => p02
    | 1, 0 => p10
    | 1, 1 => p11
    | 1, 2 => p12
    | 2, 0 => p20
    | 2, 1 => p21
    | _, _ => p22

/-! ## Validation against the unit tests of the source -/

section UnitTests
open Player

example : Grid.new.number_of_turns = 0 := by decide
example : Grid.new.player_turn = Player.X := by decide
-- unit test win::check_diag
example : (Grid.fromMatrix (mkMatrix X Empty Empty O X Empty O Empty X)).has_winner = true := by decide
-- unit test win::check_antidiag
example : (Grid.fromMatrix (mkMatrix O Empty X X X Empty X O O)).has_winner = true := by decide
-- unit test win::check_col
example : (Grid.fromMatrix (mkMatrix O X Empty O X X O Empty X)).has_winner = true := by decide
-- unit test win::check_row
example : (Grid.fromMatrix (mkMatrix X X X O X Empty O Empty O)).has_winner = true := by decide
-- unit test win::no_winner
example : (Grid.fromMatrix (mkMatrix X Empty Empty O O X O X X)).has_winner = false := by decide
-- unit test win::empty_no_winner
example : Grid.new.has_winner = false := by decide
-- unit test win::is_full
example : (Grid.fromMatrix (mkMatrix X X O O O X O X X)).is_full = true := by decide
-- unit test win::is_not_full
example : (Grid.fromMatrix (mkMatrix Empty X O O Empty X O X X)).is_full = false := by decide
-- unit test bot::immediate_win
example : (Grid.fromMatrix (mkMatrix Empty O Empty X O X Empty Empty X)).best_play = some (1, 2) := by decide
-- unit test bot::immediate_lose
example : (Grid.fromMatrix (mkMatrix O Empty X Empty Empty X Empty Empty Empty)).best_play = some (2, 2) := by decide

end UnitTests

/-! ## `has_winner` against the spec line condition -/

/-- The eight winning lines, spelled out cell by cell and split into an
`X` case and an `O` case each. -/
def winnerDisj (m : Matrix3) : Prop :=
  ((m 0 0 = Player.X ∧ m 0 1 = Player.X ∧ m 0 2 = Player.X)
    ∨ (m 0 0 = Player.O ∧ m 0 1 = Player.O ∧ m 0 2 = Player.O))
  ∨ ((m 1 0 = Player.X ∧ m 1 1 = Player.X ∧ m 1 2 = Player.X)
    ∨ (m 1 0 = Player.O ∧ m 1 1 = Player.O ∧ m 1 2 = Player.O))
  ∨ ((m 2 0 = Player.X ∧ m 2 1 = Player.X ∧ m 2 2 = Player.X)
    ∨ (m 2 0 = Player.O ∧ m 2 1 = Player.O ∧ m 2 2 = Player.O))
  ∨ ((m 0 0 = Player.X ∧ m 1 0 = Player.X ∧ m 2 0 = Player.X)
    ∨ (m 0 0 = Player.O ∧ m 1 0 = Player.O ∧ m 2 0 = Player.O))
  ∨ ((m 0 1 = Player.X ∧ m 1 1 = Player.X ∧ m 2 1 = Player.X)
    ∨ (m 0 1 = Player.O ∧ m 1 1 = Player.O ∧ m 2 1 = Player.O))
  ∨ ((m 0 2 = Player.X ∧ m 1 2 = Player.X ∧ m 2 2 = Player.X)
    ∨ (m 0 2 = Player.O ∧ m 1 2 = Player.O ∧ m 2 2 = Player.O))
  ∨ ((m 0 0 = Player.X ∧ m 1 1 = Player.X ∧ m 2 2 = Player.X)
    ∨ (m 0 0 = Player.O ∧ m 1 1 = Player.O ∧ m 2 2 = Player.O))
  ∨ ((m 0 2 = Player.X ∧ m 1 1 = Player.X ∧ m 2 0 = Player.X)
    ∨ (m 0 2 = Player.O ∧ m 1 1 = Player.O ∧ m 2 0 = Player.O))

theorem exists_player_iff (P : Player → Prop) :
    (∃ p, P p) ↔ P Player.X ∨ P Player.O ∨ P Player.Empty := by
  constructor
  · rintro ⟨p, hp⟩
    cases p
    · exact Or.inl hp
    · exact Or.inr (Or.inl hp)
    · exact Or.inr (Or.inr hp)
  · rintro (h | h | h) <;> exact ⟨_, h⟩

theorem exists_fin3_iff (P : Fin 3 → Prop) :
    (∃ i, P i) ↔ P 0 ∨ P 1 ∨ P 2 := by
  constructor
  · rintro ⟨i, hi⟩
    fin_cases i
    · exact Or.inl hi
    · exact Or.inr (Or.inl hi)
    · exact Or.inr (Or.inr hi)
  · rintro (h | h | h) <;> exact ⟨_, h⟩

theorem check_col_iff (g : Grid) (col : Fin 3) :
    g.check_col col = true ↔
      ((g.matrix 0 col = Player.X ∧ g.matrix 1 col = Player.X ∧ g.matrix 2 col = Player.X)
        ∨ (g.matrix 0 col = Player.O ∧ g.matrix 1 col = Player.O ∧ g.matrix 2 col = Player.O)) := by
  rw [Grid.check_col]
  generalize g.matrix 0 col = a
  generalize g.matrix 1 col = b
  generalize g.matrix 2 col = c
  cases a <;> cases b <;> cases c <;> decide

theorem check_row_iff (g : Grid) (row : Fin 3) :
    g.check_row row = true ↔
      ((g.matrix row 0 = Player.X ∧ g.matrix row 1 = Player.X ∧ g.matrix row 2 = Player.X)
        ∨ (g.matrix row 0 = Player.O ∧ g.matrix row 1 = Player.O ∧ g.matrix row 2 = Player.O)) := by
  rw [Grid.check_row]
  generalize g.matrix row 0 = a
  generalize g.matrix row 1 = b
  generalize g.matrix row 2 = c
  cases a <;> cases b <;> cases c <;> decide

theorem check_diag_iff (g : Grid) :
    g.check_diag = true ↔
      (((g.matrix 0 0 = Player.X ∧ g.matrix 1 1 = Player.X ∧ g.matrix 2 2 = Player.X)
        ∨ (g.matrix 0 0 = Player.O ∧ g.matrix 1 1 = Player.O ∧ g.matrix 2 2 = Player.O))
      ∨ ((g.matrix 0 2 = Player.X ∧ g.matrix 1 1 = Player.X ∧ g.matrix 2 0 = Player.X)
        ∨ (g.matrix 0 2 = Player.O ∧ g.matrix 1 1 = Player.O ∧ g.matrix 2 0 = Player.O))) := by
  rw [Grid.check_diag]
  generalize g.matrix 0 0 = a
  generalize g.matrix 1 1 = b
  generalize g.matrix 2 2 = c
  generalize g.matrix 2 0 = d
  generalize g.matrix 0 2 = e
  cases a <;> cases b <;> cases c <;> cases d <;> cases e <;> decide

theorem has_winner_iff_winnerDisj (g : Grid) :
    g.has_winner = true ↔ winnerDisj g.matrix := by
  rw [Grid.has_winner, winnerDisj]
  split_ifs with hd
  · rw [check_diag_iff] at hd
    refine iff_of_true rfl ?_
    rcases hd with hd | hd
    · exact Or.inr (Or.inr (Or.inr (Or.inr (Or.inr (Or.inr (Or.inl hd))))))
    · exact Or.inr (Or.inr (Or.inr (Or.inr (Or.inr (Or.inr (Or.inr hd))))))
  · rw [check_diag_iff] at hd
    have hany : (([0, 1, 2] : List (Fin 3)).any fun i => g.check_col i || g.check_row i) = true
        ↔ ((g.check_col 0 = true ∨ g.check_row 0 = true)
          ∨ (g.check_col 1 = true ∨ g.check_row 1 = true)
          ∨ (g.check_col 2 = true ∨ g.check_row 2 = true)) := by
      simp [List.any_cons, List.any_nil, Bool.or_eq_true, or_assoc]
    rw [hany]
    rw [check_col_iff g 0, check_col_iff g 1, check_col_iff g 2,
      check_row_iff g 0, check_row_iff g 1, check_row_iff g 2]
    constructor
    · rintro ((h | h) | (h | h) | (h | h))
      · exact Or.inr (Or.inr (Or.inr (Or.inl h)))
      · exact Or.inl h
      · exact Or.inr (Or.inr (Or.inr (Or.inr (Or.inl h))))
      · exact Or.inr (Or.inl h)
      · exact Or.inr (Or.inr (Or.inr (Or.inr (Or.inr (Or.inl h)))))
      · exact Or.inr (Or.inr (Or.inl h))
    · rintro (h | h | h | h | h | h | h | h)
      · exact Or.inl (Or.inr h)
      · exact Or.inr (Or.inl (Or.inr h))
      · exact Or.inr (Or.inr (Or.inr h))
      · exact Or.inl (Or.inl h)
      · exact Or.inr (Or.inl (Or.inl h))
      · exact Or.inr (Or.inr (Or.inl h))
      · exact absurd (Or.inl h) hd
      · exact absurd (Or.inr h) hd

theorem winnerLines_iff_winnerDisj (m : Matrix3) :
    winnerLines m ↔ winnerDisj m := by
  rw [winnerLines, winnerDisj]
  rw [exists_player_iff]
  simp only [exists_fin3_iff]
  constructor
  · rintro (⟨_, hL⟩ | ⟨_, hL⟩ | ⟨hpe, _⟩)
    · rcases hL with (h | h | h) | (h | h | h) | h | h
      · exact Or.inl (Or.inl h)
      · exact Or.inr (Or.inl (Or.inl h))
      · exact Or.inr (Or.inr (Or.inl (Or.inl h)))
      · exact Or.inr (Or.inr (Or.inr (Or.inl (Or.inl h))))
      · exact Or.inr (Or.inr (Or.inr (Or.inr (Or.inl (Or.inl h)))))
      · exact Or.inr (Or.inr (Or.inr (Or.inr (Or.inr (Or.inl (Or.inl h))))))
      · exact Or.inr (Or.inr (Or.inr (Or.inr (Or.inr (Or.inr (Or.inl (Or.inl h)))))))
      · exact Or.inr (Or.inr (Or.inr (Or.inr (Or.inr (Or.inr (Or.inr (Or.inl h)))))))
    · rcases hL with (h | h | h) | (h | h | h) | h | h
      · exact Or.inl (Or.inr h)
      · exact Or.inr (Or.inl (Or.inr h))
      · exact Or.inr (Or.inr (Or.inl (Or.inr h)))
      · exact Or.inr (Or.inr (Or.inr (Or.inl (Or.inr h))))
      · exact Or.inr (Or.inr (Or.inr (Or.inr (Or.inl (Or.inr h)))))
      · exact Or.inr (Or.inr (Or.inr (Or.inr (Or.inr (Or.inl (Or.inr h))))))
      · exact Or.inr (Or.inr (Or.inr (Or.inr (Or.inr (Or.inr (Or.inl (Or.inr h)))))))
      · exact Or.inr (Or.inr (Or.inr (Or.inr (Or.inr (Or.inr (Or.inr (Or.inr h)))))))
    · rcases hpe with hpe | hpe <;> exact absurd hpe (by simp)
  · rintro (h | h | h | h | h | h | h | h) <;> rcases h with h | h
    · exact Or.inl ⟨by simp, Or.inl (Or.inl h)⟩
    · exact Or.inr (Or.inl ⟨by simp, Or.inl (Or.inl h)⟩)
    · exact Or.inl ⟨by simp, Or.inl (Or.inr (Or.inl h))⟩
    · exact Or.inr (Or.inl ⟨by simp, Or.inl (Or.inr (Or.inl h))⟩)
    · exact Or.inl ⟨by simp, Or.inl (Or.inr (Or.inr h))⟩
    · exact Or.inr (Or.inl ⟨by simp, Or.inl (Or.inr (Or.inr h))⟩)
    · exact Or.inl ⟨by simp, Or.inr (Or.inl (Or.inl h))⟩
    · exact Or.inr (Or.inl ⟨by simp, Or.inr (Or.inl (Or.inl h))⟩)
    · exact Or.inl ⟨by simp, Or.inr (Or.inl (Or.inr (Or.inl h)))⟩
    · exact Or.inr (Or.inl ⟨by simp, Or.inr (Or.inl (Or.inr (Or.inl h)))⟩)
    · exact Or.inl ⟨by simp, Or.inr (Or.inl (Or.inr (Or.inr h)))⟩
    · exact Or.inr (Or.inl ⟨by simp, Or.inr (Or.inl (Or.inr (Or.inr h)))⟩)
    · exact Or.inl ⟨by simp, Or.inr (Or.inr (Or.inl h))⟩
    · exact Or.inr (Or.inl ⟨by simp, Or.inr (Or.inr (Or.inl h))⟩)
    · exact Or.inl ⟨by simp, Or.inr (Or.inr (Or.inr h))⟩
    · exact Or.inr (Or.inl ⟨by simp, Or.inr (Or.inr (Or.inr h))⟩)

/-! ## Invariant preservation -/

theorem strongInv_fromMatrix (m : Matrix3) :
    (Grid.fromMatrix m).number_of_turns = (specCount m : Int)
    ∧ (Grid.fromMatrix m).player_turn
        = (if (Grid.fromMatrix m).number_of_turns % 2 = 0 then Player.X else Player.O) := by
  constructor
  · simp only [Grid.fromMatrix]
    exact count_eq_specCount m
  · simp only [Grid.fromMatrix]

theorem strongInv_set (g : Grid) (x y : Fin 3)
    (h1 : g.number_of_turns = (specCount g.matrix : Int))
    (h2 : g.player_turn = (if g.number_of_turns % 2 = 0 then Player.X else Player.O)) :
    (g.set x y).2.number_of_turns = (specCount (g.set x y).2.matrix : Int)
    ∧ (g.set x y).2.player_turn
        = (if (g.set x y).2.number_of_turns % 2 = 0 then Player.X else Player.O) := by
  rw [Grid.set]
  by_cases hE : g.matrix y x = Player.Empty
  · rw [if_neg (by simp [hE])]
    have hp : g.player_turn ≠ Player.Empty := by
      rw [h2]
      split_ifs <;> simp
    have hcount := specCount_setCell g.matrix y x g.player_turn hE hp
    constructor
    · show g.number_of_turns + 1 = (specCount (g.matrix.setCell y x g.player_turn) : Int)
      rw [hcount]
      push_cast
      omega
    · show (if g.player_turn = Player.X then Player.O else Player.X)
        = (if (g.number_of_turns + 1) % 2 = 0 then Player.X else Player.O)
      rw [h2]
      by_cases hpar : g.number_of_turns % 2 = 0
      · rw [if_pos hpar, if_pos rfl, if_neg (by omega)]
      · rw [if_neg hpar, if_neg (by simp), if_pos (by omega)]
  · rw [if_pos (by simp [hE])]
    exact ⟨h1, h2⟩

/-! ## Certificates for the empty-board value -/

set_option maxHeartbeats 10000000 in
set_option maxRecDepth 20000 in
theorem le_chk_new : le_chk 0 10 Grid.new = true := by decide

set_option maxHeartbeats 40000000 in
set_option maxRecDepth 20000 in
theorem ge_chk_new : ge_chk 0 10 Grid.new = true := by decide

/-! ## Claim theorems -/

/-- C1: for every grid on which `has_winner()` is true, `minimax` returns
`10 - turns_played` when `player_to_move` is `X`, and `turns_played - 10`
when `player_to_move` is `O`. -/
theorem minimax_terminal_score (g : Grid) (hw : g.has_winner = true) :
    (g.player_turn = Player.X → minimax g = 10 - g.number_of_turns)
      ∧ (g.player_turn = Player.O → minimax g = g.number_of_turns - 10) := by
  constructor <;> intro hp <;> rw [minimax, minimaxF_winner _ _ hw, hp] <;> simp

open Player in
theorem minimax_terminal_score_witness :
    (Grid.fromMatrix (mkMatrix X X X O X Empty O Empty O)).has_winner = true
    ∧ (Grid.fromMatrix (mkMatrix X X X O X Empty O Empty O)).player_turn = Player.O
    ∧ minimax (Grid.fromMatrix (mkMatrix X X X O X Empty O Empty O))
        = (Grid.fromMatrix (mkMatrix X X X O X Empty O Empty O)).number_of_turns - 10 :=
  ⟨by decide, by decide,
    (minimax_terminal_score _ (by decide)).2 (by decide)⟩

/-- C2: for every grid satisfying the documented invariant
(`turns_played` = count of non-`Empty` cells), with no winner and at
least one `Empty` cell, `minimax` returns the minimum of the recursive
`minimax` scores of all child positions when `player_to_move` is `X`,
and their maximum when it is `O`.  `childScores` lists exactly one score
per `Empty` cell, obtained by applying the move to a copy of the grid. -/
theorem minimax_open (g : Grid)
    (hInv : g.number_of_turns = (specCount g.matrix : Int))
    (hw : g.has_winner = false) (hne : ∃ y x, g.matrix y x = Player.Empty) :
    (g.player_turn = Player.X →
      minimax g ∈ childScores g ∧ ∀ w ∈ childScores g, minimax g ≤ w)
    ∧ (g.player_turn = Player.O →
      minimax g ∈ childScores g ∧ ∀ w ∈ childScores g, w ≤ minimax g) := by
  obtain ⟨y, x, hE⟩ := hne
  have h8 := specCount_le_eight g.matrix y x hE
  have hnotfull : g.is_full = false := by
    simp only [Grid.is_full, decide_eq_false_iff_not]
    omega
  have h10 : minimax g = minimaxF (9 + 1) g := rfl
  have hcs : (legalMoves g).map (fun c => minimaxF 9 (g.set c.1 c.2).2) = childScores g := by
    rw [childScores]
    apply List.map_congr_left
    intro c hc
    have hEc := legalMoves_empty_cell g c hc
    have hm := measureG_set_child g c.1 c.2 hEc
    have hle := measureG_le_ten g
    exact (minimax_eq_minimaxF (g.set c.1 c.2).2 9 (by omega)).symm
  have hmain := minimaxF_succ_open 9 g hw hnotfull
  rw [hcs] at hmain
  rw [h10, hmain]
  have hmem := mem_legalMoves g x y hE
  rcases hcsl : childScores g with _ | ⟨v, vs⟩
  · exfalso
    rw [childScores, List.map_eq_nil_iff] at hcsl
    rw [hcsl] at hmem
    exact absurd hmem (List.not_mem_nil _)
  · constructor <;> intro hp <;> rw [hp] <;> constructor
    · rw [List.foldl_cons, update_score_none, foldl_update_score_X, Option.getD_some]
      exact foldl_min_mem vs v
    · intro w hwmem
      rw [List.foldl_cons, update_score_none, foldl_update_score_X, Option.getD_some]
      exact foldl_min_le vs v w hwmem
    · rw [List.foldl_cons, update_score_none, foldl_update_score_O, Option.getD_some]
      exact foldl_max_mem vs v
    · intro w hwmem
      rw [List.foldl_cons, update_score_none, foldl_update_score_O, Option.getD_some]
      exact foldl_max_ge vs v w hwmem

open Player in
theorem minimax_open_witness :
    ((Grid.fromMatrix (mkMatrix Empty X O O Empty X O X X)).number_of_turns
        = (specCount (Grid.fromMatrix (mkMatrix Empty X O O Empty X O X X)).matrix : Int))
    ∧ (Grid.fromMatrix (mkMatrix Empty X O O Empty X O X X)).has_winner = false
    ∧ (∃ y x, (Grid.fromMatrix (mkMatrix Empty X O O Empty X O X X)).matrix y x = Player.Empty)
    ∧ (Grid.fromMatrix (mkMatrix Empty X O O Empty X O X X)).player_turn = Player.O
    ∧ (minimax (Grid.fromMatrix (mkMatrix Empty X O O Empty X O X X))
          ∈ childScores (Grid.fromMatrix (mkMatrix Empty X O O Empty X O X X))
        ∧ ∀ w ∈ childScores (Grid.fromMatrix (mkMatrix Empty X O O Empty X O X X)),
            w ≤ minimax (Grid.fromMatrix (mkMatrix Empty X O O Empty X O X X))) :=
  ⟨by decide, by decide, by decide, by decide,
    (minimax_open _ (by decide) (by decide) (by decide)).2 (by decide)⟩

/-- C3: on every grid with at least one `Empty` cell, `best_play`
returns the earliest-enumerated candidate attaining the maximum score,
where `scoredMoves` lists the candidates in the row-major scan order of
the source, each scored by cloning the grid, applying the move, and
calling `minimax`; every strictly earlier candidate scores strictly
less, so ties keep the earliest move. -/
theorem best_play_first_argmax (g : Grid)
    (hne : ∃ y x, g.matrix y x = Player.Empty) :
    ∃ s x y l₁ l₂,
      g.best_play = some (x, y)
      ∧ scoredMoves g = l₁ ++ (s, x, y) :: l₂
      ∧ (∀ e ∈ l₁, e.1 < s)
      ∧ (∀ e ∈ scoredMoves g, e.1 ≤ s) := by
  obtain ⟨y0, x0, hE⟩ := hne
  obtain ⟨r, l₁, l₂, hbp, hdec, hstrict, hle⟩ :=
    best_play_argmax g (scoredMoves_ne_nil g y0 x0 hE)
  have hr : (r.1, r.2.1, r.2.2) = r := rfl
  exact ⟨r.1, r.2.1, r.2.2, l₁, l₂, hbp, by rw [hr]; exact hdec, hstrict, hle⟩

open Player in
theorem best_play_first_argmax_witness :
    (∃ y x, (Grid.fromMatrix (mkMatrix Empty X O O Empty X O X X)).matrix y x = Player.Empty)
    ∧ ∃ s x y l₁ l₂,
        (Grid.fromMatrix (mkMatrix Empty X O O Empty X O X X)).best_play = some (x, y)
        ∧ scoredMoves (Grid.fromMatrix (mkMatrix Empty X O O Empty X O X X))
            = l₁ ++ (s, x, y) :: l₂
        ∧ (∀ e ∈ l₁, e.1 < s)
        ∧ (∀ e ∈ scoredMoves (Grid.fromMatrix (mkMatrix Empty X O O Empty X O X X)), e.1 ≤ s) :=
  ⟨by decide, best_play_first_argmax _ (by decide)⟩

/-- C4: every grid produced by `new()`/`from(cells)` or by applying
`set` (successful or not) to such a grid has `turns_played` equal to the
count of non-`Empty` cells and `player_to_move = X` iff `turns_played`
is even. -/
theorem reachable_invariant (g : Grid) (hr : Reachable g) :
    g.number_of_turns = (specCount g.matrix : Int)
    ∧ (g.player_turn = Player.X ↔ g.number_of_turns % 2 = 0) := by
  have hstrong : g.number_of_turns = (specCount g.matrix : Int)
      ∧ g.player_turn
          = (if g.number_of_turns % 2 = 0 then Player.X else Player.O) := by
    induction hr with
    | fromMatrix m => exact strongInv_fromMatrix m
    | step g x y _ ih => exact strongInv_set g x y ih.1 ih.2
  refine ⟨hstrong.1, ?_⟩
  rw [hstrong.2]
  split_ifs with hc
  · simp [hc]
  · simp [hc]

theorem reachable_invariant_witness :
    Grid.new.number_of_turns = (specCount Grid.new.matrix : Int)
    ∧ (Grid.new.player_turn = Player.X ↔ Grid.new.number_of_turns % 2 = 0) :=
  reachable_invariant Grid.new (Reachable.fromMatrix _)

/-- C5: `set` on an occupied cell returns the occupant as the error and
returns the grid unchanged (same cells, same `turns_played`, same
`player_to_move`). -/
theorem set_occupied (g : Grid) (x y : Fin 3) (h : g.matrix y x ≠ Player.Empty) :
    g.set x y = (Except.error (g.matrix y x), g) := by
  rw [Grid.set, if_pos h]

open Player in
theorem set_occupied_witness :
    (Grid.fromMatrix (mkMatrix X Empty Empty Empty Empty Empty Empty Empty Empty)).matrix 0 0
      ≠ Player.Empty
    ∧ (Grid.fromMatrix (mkMatrix X Empty Empty Empty Empty Empty Empty Empty Empty)).set 0 0
      = (Except.error
          ((Grid.fromMatrix (mkMatrix X Empty Empty Empty Empty Empty Empty Empty Empty)).matrix 0 0),
         Grid.fromMatrix (mkMatrix X Empty Empty Empty Empty Empty Empty Empty Empty)) :=
  ⟨by decide, set_occupied _ 0 0 (by decide)⟩

/-- C6: `set` on an `Empty` cell succeeds: it writes the current
`player_to_move` mark into that cell (leaving every other cell
unchanged), increments `turns_played` by exactly 1, and flips
`player_to_move` to the other player. -/
theorem set_empty_succeeds (g : Grid) (x y : Fin 3) (h : g.matrix y x = Player.Empty) :
    (g.set x y).1 = Except.ok ()
    ∧ (g.set x y).2.matrix y x = g.player_turn
    ∧ (∀ y' x' : Fin 3, ¬(y' = y ∧ x' = x) → (g.set x y).2.matrix y' x' = g.matrix y' x')
    ∧ (g.set x y).2.number_of_turns = g.number_of_turns + 1
    ∧ (g.set x y).2.player_turn
        = (if g.player_turn = Player.X then Player.O else Player.X) := by
  rw [Grid.set, if_neg (by simp [h])]
  refine ⟨rfl, ?_, ?_, rfl, rfl⟩
  · simp [Matrix3.setCell]
  · intro y' x' hne
    simp [Matrix3.setCell, hne]

open Player in
theorem set_empty_succeeds_witness :
    (Grid.fromMatrix (mkMatrix X Empty Empty Empty Empty Empty Empty Empty Empty)).matrix 0 1
      = Player.Empty
    ∧ ((Grid.fromMatrix (mkMatrix X Empty Empty Empty Empty Empty Empty Empty Empty)).set 1 0).1
      = Except.ok ()
    ∧ ((Grid.fromMatrix (mkMatrix X Empty Empty Empty Empty Empty Empty Empty Empty)).set 1 0).2.number_of_turns
      = (Grid.fromMatrix (mkMatrix X Empty Empty Empty Empty Empty Empty Empty Empty)).number_of_turns + 1 := by
  have h := set_empty_succeeds
    (Grid.fromMatrix (mkMatrix X Empty Empty Empty Empty Empty Empty Empty Empty)) 1 0 (by decide)
  exact ⟨by decide, h.1, h.2.2.2.1⟩

/-- C7: `has_winner()` is true exactly when some row, column or diagonal
of the matrix is uniformly `X` or uniformly `O`. -/
theorem has_winner_iff_lines (g : Grid) :
    g.has_winner = true ↔ winnerLines g.matrix :=
  (has_winner_iff_winnerDisj g).trans (winnerLines_iff_winnerDisj g.matrix).symm

/-- C8: `best_play()` returns `none` exactly when no cell is `Empty`
(no legal move exists), and otherwise returns some coordinate pair. -/
theorem best_play_none_iff (g : Grid) :
    g.best_play = none ↔ ∀ y x : Fin 3, g.matrix y x ≠ Player.Empty := by
  constructor
  · intro hn y x hE
    obtain ⟨r, l₁, l₂, hbp, _, _, _⟩ :=
      best_play_argmax g (scoredMoves_ne_nil g y x hE)
    rw [hbp] at hn
    exact Option.noConfusion hn
  · intro hall
    rw [best_play_eq_scored]
    have hsm : scoredMoves g = [] := by
      rw [scoredMoves, legalMoves]
      have hfil : coords.filter (fun c => decide (g.matrix c.2 c.1 = Player.Empty)) = [] := by
        rw [List.filter_eq_nil_iff]
        intro c _
        simpa using hall c.2 c.1
      rw [hfil]
      rfl
    rw [hsm]
    rfl

/-- C9: on the empty board `best_play()` returns a move, and `minimax`
of `Grid::new()` is 0, the draw value under optimal play. -/
theorem empty_board_draw :
    (∃ c, Grid.new.best_play = some c) ∧ minimax Grid.new = 0 := by
  constructor
  · have hE : Grid.new.matrix 0 0 = Player.Empty := rfl
    obtain ⟨r, l₁, l₂, hbp, _, _, _⟩ :=
      best_play_argmax Grid.new (scoredMoves_ne_nil Grid.new 0 0 hE)
    exact ⟨_, hbp⟩
  · have h1 := le_chk_sound 10 Grid.new 0 le_chk_new
    have h2 := ge_chk_sound 10 Grid.new 0 ge_chk_new
    rw [minimax]
    omega

/-- C10: whenever `best_play()` returns `some (x, y)`, the coordinates
are in range, the targeted cell is `Empty`, and `set(x, y)` on the same
grid succeeds. -/
theorem best_play_result_legal (g : Grid) (x y : Fin 3)
    (h : g.best_play = some (x, y)) :
    (x : Nat) < 3 ∧ (y : Nat) < 3 ∧ g.matrix y x = Player.Empty
      ∧ (g.set x y).1 = Except.ok () := by
  rcases hsm : scoredMoves g with _ | ⟨b, t⟩
  · rw [best_play_eq_scored, hsm] at h
    exact Option.noConfusion h
  · obtain ⟨r, l₁, l₂, hbp, hdec, _, _⟩ :=
      best_play_argmax g (by rw [hsm]; exact List.cons_ne_nil b t)
    rw [hbp] at h
    injection h with h'
    have hrmem : r ∈ scoredMoves g := by
      rw [hdec]
      exact List.mem_append_right _ (List.mem_cons_self _ _)
    rw [scoredMoves] at hrmem
    obtain ⟨c, hcmem, hceq⟩ := List.mem_map.mp hrmem
    have hcx : c.1 = x := by
      rw [show c.1 = r.2.1 from by rw [← hceq], show r.2.1 = x from congrArg Prod.fst h']
    have hcy : c.2 = y := by
      rw [show c.2 = r.2.2 from by rw [← hceq], show r.2.2 = y from congrArg Prod.snd h']
    have hcE := legalMoves_empty_cell g c hcmem
    rw [hcx, hcy] at hcE
    refine ⟨x.isLt, y.isLt, hcE, ?_⟩
    rw [Grid.set, if_neg (by simp [hcE])]

open Player in
theorem best_play_result_legal_witness :
    (Grid.fromMatrix (mkMatrix X O X O X X O Empty O)).best_play = some (1, 2)
    ∧ (Grid.fromMatrix (mkMatrix X O X O X X O Empty O)).matrix 2 1 = Player.Empty
    ∧ ((Grid.fromMatrix (mkMatrix X O X O X X O Empty O)).set 1 2).1 = Except.ok () := by
  have h := best_play_result_legal
    (Grid.fromMatrix (mkMatrix X O X O X X O Empty O)) 1 2 (by decide)
  exact ⟨by decide, h.2.2.1, h.2.2.2⟩

end TicTacToe
